/-
  Verification of the fish-shell keyboard input dispatcher (src/input.cpp).

  Shallow embedding: wide characters (wchar_t / wint_t) are modelled as Int
  (which covers the (wchar_t)-1 sentinel returned by input_function_get_code);
  the low-level reader (input_common) is modelled as a push-back stack of
  characters in front of an infinite underlying stream.  Strings of the host
  shell (command names, modes) are Lean Strings; key sequences (wcstring of
  wide characters fed to the matcher) are List Int.
-/
import Mathlib

set_option maxRecDepth 10000

/-! ## Reserved command codes

The numeric values of the `R_*` codes live in input.h / input_common.h, which
are not part of the sources under verification. -/

/-- Modelled from the spec: input_common.h's reserved base code `R_NULL`
("codepoints outside printable Unicode used as in-band signals"); the exact
numeric value is immaterial, only that the reserved range is disjoint from
textual input. -/
def R_NULL : Int := 0xE000

/-- Modelled from the spec: `R_EOF`, the next reserved code after `R_NULL`. -/
def R_EOF : Int := R_NULL + 1

/-- Modelled from the spec: input.h (not under src/) assigns each of the 48
editor functions a code in the reserved range `[R_MIN, R_MAX]`; `describe_char`
in src/input.cpp indexes `name_arr` by `c - R_BEGINNING_OF_LINE`, and the
spec's round-trip property requires the codes to be consecutive from
`R_BEGINNING_OF_LINE` in declaration order. -/
def R_BEGINNING_OF_LINE : Int := R_NULL + 10

/-- Modelled from the spec: `R_FORWARD_JUMP` is the code of `forward-jump`,
entry 44 of the declaration order. -/
def R_FORWARD_JUMP : Int := R_BEGINNING_OF_LINE + 44

/-- Modelled from the spec: `R_BACKWARD_JUMP` is the code of `backward-jump`,
entry 45 of the declaration order. -/
def R_BACKWARD_JUMP : Int := R_BEGINNING_OF_LINE + 45

/-! ## Function registry (name_arr / code_arr) -/

/-- `name_arr` from src/input.cpp: names of all the input functions supported. -/
def name_arr : List String :=
  [ "beginning-of-line"
  , "end-of-line"
  , "forward-char"
  , "backward-char"
  , "forward-word"
  , "backward-word"
  , "history-search-backward"
  , "history-search-forward"
  , "delete-char"
  , "backward-delete-char"
  , "kill-line"
  , "yank"
  , "yank-pop"
  , "complete"
  , "complete-and-search"
  , "beginning-of-history"
  , "end-of-history"
  , "backward-kill-line"
  , "kill-whole-line"
  , "kill-word"
  , "backward-kill-word"
  , "backward-kill-path-component"
  , "history-token-search-backward"
  , "history-token-search-forward"
  , "self-insert"
  , "transpose-chars"
  , "transpose-words"
  , "upcase-word"
  , "downcase-word"
  , "capitalize-word"
  , "vi-arg-digit"
  , "vi-delete-to"
  , "execute"
  , "beginning-of-buffer"
  , "end-of-buffer"
  , "repaint"
  , "force-repaint"
  , "up-line"
  , "down-line"
  , "suppress-autosuggestion"
  , "accept-autosuggestion"
  , "begin-selection"
  , "end-selection"
  , "kill-selection"
  , "forward-jump"
  , "backward-jump"
  , "and"
  , "cancel" ]

/-- `code_arr` from src/input.cpp: the internal code of each input function, in
the same order as `name_arr`.  The values are the consecutive input.h codes
(see `R_BEGINNING_OF_LINE`). -/
def code_arr : List Int := (List.range 48).map (fun i => R_BEGINNING_OF_LINE + i)

/-- Loop body of `input_function_get_code`: scan the two parallel arrays for
`name`, returning the code at the matching index, `(wchar_t)-1` if absent. -/
def get_code_loop : List String → List Int → String → Int
  | n :: ns, c :: cs, name => if name = n then c else get_code_loop ns cs name
  | _, _, _ => -1

/-- `input_function_get_code` from src/input.cpp. -/
def input_function_get_code (name : String) : Int :=
  get_code_loop name_arr code_arr name

/-- `input_function_get_names` from src/input.cpp. -/
def input_function_get_names : List String := name_arr

/-- `input_function_arity` from src/input.cpp: 1 for the two jump functions,
0 otherwise. -/
def input_function_arity (function : Int) : Nat :=
  if function = R_FORWARD_JUMP ∨ function = R_BACKWARD_JUMP then 1 else 0

/-- Hexadecimal rendering of `%02x`: lower-case hex digits, zero-padded to
width 2. -/
def hex02 (c : Nat) : String :=
  let s := Nat.toDigits 16 c
  String.mk (List.replicate (2 - s.length) '0' ++ s)

/-- `describe_char` from src/input.cpp: hex plus the function name when the
code is in the registry's range. -/
def describe_char (c : Int) : String :=
  if R_BEGINNING_OF_LINE ≤ c ∧ c < R_BEGINNING_OF_LINE + (name_arr.length : Int) then
    hex02 c.toNat ++ " (" ++ (name_arr.getD (c - R_BEGINNING_OF_LINE).toNat "") ++ ")"
  else
    hex02 c.toNat

/-- Substring containment, as a decidable Bool (models "the description
contains the name"). -/
def strContains (hay needle : String) : Bool := decide (List.IsInfix needle.data hay.data)

/-! ## The low-level reader (input_common) -/

/-- Model of the input_common reader state: a LIFO push-back stack in front of
an infinite underlying character stream. -/
structure InputState where
  pushback : List Int
  base : Nat → Int

/-- `input_common_readch(timed)`: pop the push-back stack if non-empty, else
take the next character of the underlying stream.  The timeout of a timed read
is real-time behaviour outside the model: the reader is modelled as always
delivering the next character, and the `timed` flag is recorded by callers
(see `matchLoop`) rather than interpreted here. -/
def input_common_readch (_timed : Bool) (st : InputState) : Int × InputState :=
  match st.pushback with
  | [] => (st.base 0, ⟨[], fun n => st.base (n + 1)⟩)
  | c :: rest => (c, ⟨rest, st.base⟩)

/-- `input_common_unreadch` / `input_unreadch`: push one character onto the
LIFO push-back stack. -/
def input_unreadch (ch : Int) (st : InputState) : InputState :=
  ⟨ch :: st.pushback, st.base⟩

/-- The observable stream of an `InputState`: the n-th character a reader
draining the state would see. -/
def streamOf (st : InputState) : Nat → Int := fun n =>
  if h : n < st.pushback.length then st.pushback.get ⟨n, h⟩
  else st.base (n - st.pushback.length)

/-! ## Binding table (input_mapping_t, mapping_list) -/

/-- `input_mapping_t` from src/input.cpp: a keybinding.  `specification_order`
is assigned by the constructor from the static counter
`s_last_input_mapping_specification_order`, held here in `TableState`. -/
structure input_mapping_t where
  seq : List Int
  commands : List String
  specification_order : Nat
  mode : String
  sets_mode : String
deriving DecidableEq, Inhabited

/-- The process-wide table state: `mapping_list` together with the static
specification-order counter of the `input_mapping_t` constructor. -/
structure TableState where
  mapping_list : List input_mapping_t
  s_last_order : Nat
deriving DecidableEq

/-- `length_is_greater_than` from src/input.cpp: comparator for the
descending-length ordering of `mapping_list`. -/
def length_is_greater_than (m1 m2 : input_mapping_t) : Bool :=
  decide (m2.seq.length < m1.seq.length)

/-- `input_mapping_insert_sorted` from src/input.cpp.  `std::lower_bound` with
`length_is_greater_than` finds the first position whose element is not longer
than the new mapping; on a list sorted in descending length this is the linear
scan below. -/
def input_mapping_insert_sorted (new_mapping : input_mapping_t) :
    List input_mapping_t → List input_mapping_t
  | [] => [new_mapping]
  | m :: rest =>
      if length_is_greater_than m new_mapping then
        m :: input_mapping_insert_sorted new_mapping rest
      else
        new_mapping :: m :: rest

/-- First loop of `input_mapping_add`: find an existing mapping with this
`(sequence, mode)` and overwrite its `commands` and `sets_mode` in place;
`none` when no such mapping exists. -/
def add_update_loop (sequence : List Int) (commands : List String)
    (mode sets_mode : String) : List input_mapping_t → Option (List input_mapping_t)
  | [] => none
  | m :: rest =>
      if m.seq = sequence ∧ m.mode = mode then
        some ({ m with commands := commands, sets_mode := sets_mode } :: rest)
      else
        (add_update_loop sequence commands mode sets_mode rest).map (fun l => m :: l)

/-- `input_mapping_add` from src/input.cpp: update in place when the
`(sequence, mode)` pair exists, else construct a new mapping (incrementing the
static specification-order counter) and insert it sorted. -/
def input_mapping_add (st : TableState) (sequence : List Int)
    (commands : List String) (mode sets_mode : String) : TableState :=
  match add_update_loop sequence commands mode sets_mode st.mapping_list with
  | some l => { st with mapping_list := l }
  | none =>
      let order := st.s_last_order + 1
      let new_mapping : input_mapping_t :=
        ⟨sequence, commands, order, mode, sets_mode⟩
      ⟨input_mapping_insert_sorted new_mapping st.mapping_list, order⟩

/-- The match condition of the `input_mapping_erase` loop:
`sequence == m.seq && (mode == NULL || mode == m.mode)`. -/
def erase_matches (sequence : List Int) (mode : Option String)
    (m : input_mapping_t) : Bool :=
  decide (sequence = m.seq) && (decide (mode = none) || decide (mode = some m.mode))

/-- `input_mapping_erase` from src/input.cpp: find the first matching mapping;
if it is not the last element, overwrite its slot with the LAST element, then
`pop_back`.  Returns whether a mapping was removed. -/
def input_mapping_erase (l : List input_mapping_t) (sequence : List Int)
    (mode : Option String) : Bool × List input_mapping_t :=
  match l.findIdx? (erase_matches sequence mode) with
  | none => (false, l)
  | some i => (true, (l.set i (l.getLastD default)).dropLast)

/-- Adjacent-pairs check of the descending-length ordering of the table, the
stored iteration order used for matching ("longer sequences shadow shorter
prefixes"). -/
def descLenOrderedBool : List input_mapping_t → Bool
  | [] => true
  | [_] => true
  | m1 :: m2 :: rest => decide (m2.seq.length ≤ m1.seq.length) && descLenOrderedBool (m2 :: rest)

/-- Descending-length ordering of the table: each mapping is at least as long
as the next one. -/
def IsDescLenOrdered (l : List input_mapping_t) : Prop := descLenOrderedBool l = true

instance (l : List input_mapping_t) : Decidable (IsDescLenOrdered l) :=
  inferInstanceAs (Decidable (descLenOrderedBool l = true))

/-! ## Terminfo registry -/

/-- Linux errno value for "No such file or directory". -/
def ENOENT : Nat := 2

/-- Linux errno value for "Invalid or incomplete multibyte or wide character". -/
def EILSEQ : Nat := 84

/-- `input_terminfo_get_sequence` from src/input.cpp, over an arbitrary
registry (the registry contents come from the terminal database at run time).
An entry is `(name, some seq)` for a defined key and `(name, none)` when the
terminal leaves `seq` NULL.  The loop keeps `err = ENOENT` until a name match,
then `err = EILSEQ`; a null `res` at the end reports `err` via errno and
returns false, modelled as `Except.error err`. -/
def input_terminfo_get_sequence :
    List (String × Option (List Int)) → String → Except Nat (List Int)
  | [], _ => .error ENOENT
  | (n, sq) :: rest, name =>
      if name = n then
        match sq with
        | none => .error EILSEQ
        | some s => .ok s
      else input_terminfo_get_sequence rest name

/-! ## Matcher (input_mapping_is_match) -/

/-- Model of the C library `iswcntrl`: the Unicode control characters
U+0000 to U+001F and U+007F to U+009F. -/
def iswcntrl (c : Int) : Bool :=
  decide (0 ≤ c ∧ c < 32) || decide (0x7F ≤ c ∧ c ≤ 0x9F)

/-- The loop of `input_mapping_is_match`.  `seq0` is the whole sequence
(`str`), `consumed` the already-matched characters in reverse (so
`consumed = [str[j-1], …, str[0]]` at position `j`), and the third argument
the rest of the sequence from position `j`.  Besides the match result and the
reader state, it returns the `timed` flag of every read it performed, in
order.  On failure it pushes back the failing character and then the consumed
characters `str[j-1], …, str[0]` (the `k = j-1 … 0` loop). -/
def matchLoop (seq0 : List Int) :
    List Int → List Int → InputState → Bool × InputState × List Bool
  | _consumed, [], st => (true, st, [])
  | consumed, ch :: rest, st =>
      let timed := (!consumed.isEmpty) && iswcntrl (seq0.headD 0)
      let r := input_common_readch timed st
      if ch = r.1 then
        let res := matchLoop seq0 (ch :: consumed) rest r.2
        (res.1, res.2.1, timed :: res.2.2)
      else
        (false, consumed.foldl (fun s k => input_unreadch k s) (input_unreadch r.1 r.2),
          [timed])

/-- `input_mapping_is_match` from src/input.cpp (with the trace of `timed`
flags as an extra observation). -/
def input_mapping_is_match (m : input_mapping_t) (st : InputState) :
    Bool × InputState × List Bool :=
  matchLoop m.seq [] m.seq st

/-- The observation of a matcher result: match flag, observable stream of the
resulting reader state, and the trace of `timed` flags. -/
def matchObs (x : Bool × InputState × List Bool) : Bool × (Nat → Int) × List Bool :=
  (x.1, streamOf x.2.1, x.2.2)

/-! ## Dispatcher (input_mapping_execute) -/

/-- The dispatcher-visible shell state: the reader, the argument stack
`input_function_args` (top first; the array-plus-index pair of the source),
the `fish_bind_mode` variable, the trace of commands handed to the external
shell evaluator, and `input_function_status`. -/
structure ExecState where
  input : InputState
  input_function_args : List Int
  bind_mode : String
  evaluated : List String
  input_function_status : Bool

/-- `input_get_bind_mode` from src/input.cpp: read the `fish_bind_mode`
variable. -/
def input_get_bind_mode (st : ExecState) : String := st.bind_mode

/-- `input_set_bind_mode` from src/input.cpp: write the `fish_bind_mode`
variable. -/
def input_set_bind_mode (bm : String) (st : ExecState) : ExecState :=
  { st with bind_mode := bm }

/-- `input_function_push_arg` from src/input.cpp:
`input_function_args[input_function_args_index++] = arg`. -/
def input_function_push_arg (arg : Int) (st : ExecState) : ExecState :=
  { st with input_function_args := arg :: st.input_function_args }

/-- The loop of `input_function_push_args`: `arity` untimed reads, each pushed
onto the argument stack. -/
def push_args_loop : Nat → ExecState → ExecState
  | 0, st => st
  | n + 1, st =>
      let r := input_common_readch false st.input
      push_args_loop n (input_function_push_arg r.1 { st with input := r.2 })

/-- `input_function_push_args` from src/input.cpp. -/
def input_function_push_args (code : Int) (st : ExecState) : ExecState :=
  push_args_loop (input_function_arity code) st

/-- First `while (idx--)` loop of `input_mapping_execute` (argument capture):
the argument list is `m.commands.reverse`, matching the last-to-first
traversal of the source. -/
def execute_pass1 : List String → ExecState → ExecState
  | [], st => st
  | command :: rest, st =>
      if input_function_get_code command ≠ -1 then
        execute_pass1 rest (input_function_push_args (input_function_get_code command) st)
      else
        execute_pass1 rest st

/-- Second `while (idx--)` loop of `input_mapping_execute` (execution), again
over `m.commands.reverse`.  A function code is pushed back onto the input; a
shell command is handed to the evaluator (recorded in `evaluated`; the
evaluator's save/restore of the process last-status is external to the model)
followed by `R_NULL`; with `allow_commands` false a shell command aborts:
`m.seq` is pushed back via reverse iteration (`rbegin` to `rend`: last
character first, so the stack front ends at `seq[0]`), then `R_NULL`, and the
loop returns early — the Bool records whether the loop ran to completion. -/
def execute_pass2 (m : input_mapping_t) (allow_commands : Bool) :
    List String → ExecState → Bool × ExecState
  | [], st => (true, st)
  | command :: rest, st =>
      if input_function_get_code command ≠ -1 then
        execute_pass2 m allow_commands rest
          { st with input := input_unreadch (input_function_get_code command) st.input }
      else if allow_commands then
        execute_pass2 m allow_commands rest
          { st with evaluated := st.evaluated ++ [command],
                    input := input_unreadch R_NULL st.input }
      else
        (false,
          { st with input := input_unreadch R_NULL (m.seq.foldr (fun ch s => input_unreadch ch s) st.input) })

/-- `input_mapping_execute` from src/input.cpp: set
`input_function_status = true`, run the two reverse passes, and set the bind
mode to `m.sets_mode` unless pass 2 aborted (`return` skips
`input_set_bind_mode`). -/
def input_mapping_execute (m : input_mapping_t) (allow_commands : Bool)
    (st : ExecState) : ExecState :=
  let st1 := { st with input_function_status := true }
  let st2 := execute_pass1 m.commands.reverse st1
  let r := execute_pass2 m allow_commands m.commands.reverse st2
  if r.1 then input_set_bind_mode m.sets_mode r.2 else r.2

/-! ## Match-or-generic scan -/

/-- The scan loop of `input_mapping_execute_matching_or_generic`: walk the
table in stored order; skip bindings of another mode; remember an
empty-sequence binding as the generic candidate (the loop variable is
overwritten, so a later one replaces an earlier one); try the matcher on the
rest, dispatching the first match.  Returns the matched concrete binding (if
any), the remembered generic, and the reader state after the scan. -/
def scanLoop (bind_mode : String) :
    Option input_mapping_t → List input_mapping_t → InputState →
      Option input_mapping_t × Option input_mapping_t × InputState
  | generic, [], inp => (none, generic, inp)
  | generic, m :: rest, inp =>
      if m.mode ≠ bind_mode then scanLoop bind_mode generic rest inp
      else if m.seq.length = 0 then scanLoop bind_mode (some m) rest inp
      else
        let r := input_mapping_is_match m inp
        if r.1 then (some m, generic, r.2.1)
        else scanLoop bind_mode generic rest r.2.1

/-- `input_mapping_execute_matching_or_generic` from src/input.cpp, with the
dispatched binding returned as an extra observation (`none` when no binding
was dispatched and a character was discarded or `R_EOF` pushed back). -/
def input_mapping_execute_matching_or_generic (table : List input_mapping_t)
    (allow_commands : Bool) (st : ExecState) : Option input_mapping_t × ExecState :=
  let bind_mode := input_get_bind_mode st
  let r := scanLoop bind_mode none table st.input
  match r.1 with
  | some m => (some m, input_mapping_execute m allow_commands { st with input := r.2.2 })
  | none =>
      match r.2.1 with
      | some generic =>
          (some generic, input_mapping_execute generic allow_commands { st with input := r.2.2 })
      | none =>
          let rc := input_common_readch false r.2.2
          if rc.1 = R_EOF then (none, { st with input := input_unreadch rc.1 rc.2 })
          else (none, { st with input := rc.2 })

/-! ## Sequences of add operations -/

/-- The arguments of one `input_mapping_add` call. -/
structure AddOp where
  sequence : List Int
  commands : List String
  mode : String
  sets_mode : String

/-- Apply a sequence of `input_mapping_add` calls to a table state. -/
def applyAdds : List AddOp → TableState → TableState
  | [], st => st
  | op :: ops, st =>
      applyAdds ops (input_mapping_add st op.sequence op.commands op.mode op.sets_mode)

/-- The initial table state: empty `mapping_list`, specification-order counter
at 0. -/
def initTable : TableState := ⟨[], 0⟩

/-- The identifying key of a binding: its `(sequence, mode)` pair. -/
def mappingKey (m : input_mapping_t) : List Int × String := (m.seq, m.mode)

/-- "At most one binding per `(sequence, mode)` pair". -/
def UniqueKeys (l : List input_mapping_t) : Prop := (l.map mappingKey).Nodup

/-- Every specification order in the table is bounded by the static counter
(hence a fresh `counter + 1` stamp is strictly larger than all of them). -/
def OrdersDominated (st : TableState) : Prop :=
  ∀ m ∈ st.mapping_list, m.specification_order ≤ st.s_last_order

/-! ## Helper lemmas -/

theorem streamOf_unreadch (ch : Int) (st : InputState) :
    streamOf (input_unreadch ch st) = fun n =>
      match n with
      | 0 => ch
      | n + 1 => streamOf st n := by
  funext n
  cases n with
  | zero => simp [streamOf, input_unreadch]
  | succ n =>
      simp only [streamOf, input_unreadch, List.length_cons]
      by_cases h : n < st.pushback.length
      · simp [Nat.succ_lt_succ_iff, h]
      · simp [Nat.succ_lt_succ_iff, h, Nat.succ_sub_succ]

theorem readch_fst (timed : Bool) (st : InputState) :
    (input_common_readch timed st).1 = streamOf st 0 := by
  cases st with
  | mk pb base =>
      cases pb with
      | nil => simp [input_common_readch, streamOf]
      | cons c rest => simp [input_common_readch, streamOf]

theorem streamOf_readch_snd (timed : Bool) (st : InputState) :
    streamOf (input_common_readch timed st).2 = fun n => streamOf st (n + 1) := by
  cases st with
  | mk pb base =>
      cases pb with
      | nil =>
          funext n
          simp [input_common_readch, streamOf]
      | cons c rest =>
          funext n
          simp only [input_common_readch, streamOf, List.length_cons]
          by_cases h : n < rest.length
          · simp [h, Nat.succ_lt_succ_iff]
          · simp [h, Nat.succ_lt_succ_iff, Nat.succ_sub_succ]

/-- Pushing back the character just read restores the observable stream. -/
theorem streamOf_unreadch_readch (timed : Bool) (st : InputState) :
    streamOf (input_unreadch (input_common_readch timed st).1
        (input_common_readch timed st).2) = streamOf st := by
  funext n
  rw [streamOf_unreadch]
  cases n with
  | zero => rw [readch_fst]
  | succ n => rw [streamOf_readch_snd]

theorem streamOf_foldl_unreadch_congr (l : List Int) :
    ∀ s1 s2 : InputState, streamOf s1 = streamOf s2 →
      streamOf (l.foldl (fun s k => input_unreadch k s) s1)
        = streamOf (l.foldl (fun s k => input_unreadch k s) s2) := by
  induction l with
  | nil => intro s1 s2 h; simpa using h
  | cons c rest ih =>
      intro s1 s2 h
      simp only [List.foldl_cons]
      apply ih
      rw [streamOf_unreadch, streamOf_unreadch, h]

theorem matchLoop_congr (seq0 : List Int) (rest : List Int) :
    ∀ consumed s1 s2, streamOf s1 = streamOf s2 →
      matchObs (matchLoop seq0 consumed rest s1)
        = matchObs (matchLoop seq0 consumed rest s2) := by
  induction rest with
  | nil => intro consumed s1 s2 h; simp [matchLoop, matchObs, h]
  | cons ch rest ih =>
      intro consumed s1 s2 h
      simp only [matchLoop]
      have h1 : (input_common_readch ((!consumed.isEmpty) && iswcntrl (seq0.headD 0)) s1).1
          = (input_common_readch ((!consumed.isEmpty) && iswcntrl (seq0.headD 0)) s2).1 := by
        rw [readch_fst, readch_fst, h]
      have h2 : streamOf (input_common_readch ((!consumed.isEmpty) && iswcntrl (seq0.headD 0)) s1).2
          = streamOf (input_common_readch ((!consumed.isEmpty) && iswcntrl (seq0.headD 0)) s2).2 := by
        rw [streamOf_readch_snd, streamOf_readch_snd, h]
      rw [← h1]
      by_cases hc : ch = (input_common_readch ((!consumed.isEmpty) && iswcntrl (seq0.headD 0)) s1).1
      · rw [if_pos hc, if_pos hc]
        have key := ih (ch :: consumed) _ _ h2
        simp only [matchObs] at key ⊢
        have e1 := congrArg Prod.fst key
        have e2 := congrArg (fun x => x.2.1) key
        have e3 := congrArg (fun x => x.2.2) key
        simp only at e1 e2 e3
        rw [e1, e2, e3]
      · rw [if_neg hc, if_neg hc]
        simp only [matchObs]
        refine congrArg (fun s => (false, s, [(!consumed.isEmpty) && iswcntrl (seq0.headD 0)])) ?_
        apply streamOf_foldl_unreadch_congr
        rw [streamOf_unreadch, streamOf_unreadch, h1, h2]

theorem matchLoop_restores (seq0 : List Int) (rest : List Int) :
    ∀ consumed st, (matchLoop seq0 consumed rest st).1 = false →
      streamOf (matchLoop seq0 consumed rest st).2.1
        = streamOf (consumed.foldl (fun s k => input_unreadch k s) st) := by
  induction rest with
  | nil => intro consumed st h; simp [matchLoop] at h
  | cons ch rest ih =>
      intro consumed st h
      simp only [matchLoop] at h ⊢
      by_cases hc : ch = (input_common_readch ((!consumed.isEmpty) && iswcntrl (seq0.headD 0)) st).1
      · rw [if_pos hc] at h ⊢
        rw [ih _ _ h, List.foldl_cons]
        apply streamOf_foldl_unreadch_congr
        show streamOf (input_unreadch ch _) = _
        rw [hc]
        exact streamOf_unreadch_readch _ st
      · rw [if_neg hc]
        apply streamOf_foldl_unreadch_congr
        exact streamOf_unreadch_readch _ st

theorem matchLoop_trace_get (seq0 : List Int) (rest : List Int) :
    ∀ consumed st j, j < (matchLoop seq0 consumed rest st).2.2.length →
      (matchLoop seq0 consumed rest st).2.2.getD j false
        = (decide (0 < consumed.length + j) && iswcntrl (seq0.headD 0)) := by
  induction rest with
  | nil => intro consumed st j h; simp [matchLoop] at h
  | cons ch rest ih =>
      intro consumed st j h
      simp only [matchLoop] at h ⊢
      by_cases hc : ch = (input_common_readch ((!consumed.isEmpty) && iswcntrl (seq0.headD 0)) st).1
      · rw [if_pos hc] at h ⊢
        cases j with
        | zero =>
            show ((!consumed.isEmpty) && iswcntrl (seq0.headD 0)) = _
            cases consumed <;> simp
        | succ j =>
            show (matchLoop seq0 (ch :: consumed) rest _).2.2.getD j false = _
            rw [ih (ch :: consumed) _ j (by simpa using Nat.lt_of_succ_lt_succ h)]
            have e1 : (0 < (ch :: consumed).length + j) := by simp
            have e2 : (0 < consumed.length + (j + 1)) := by omega
            simp [e1, e2]
      · rw [if_neg hc] at h ⊢
        cases j with
        | zero =>
            show ((!consumed.isEmpty) && iswcntrl (seq0.headD 0)) = _
            cases consumed <;> simp
        | succ j =>
            exfalso
            simp at h

/-! ## Claim theorems -/

/-- C2: for every binding `m` and input stream, if the matcher fails on `m`
after reading some characters, then after it returns NO_MATCH the readable
stream equals the original stream exactly (failing character pushed back
first, then the matched prefix in reverse). -/
theorem matcher_failure_restores_stream (m : input_mapping_t) (st : InputState)
    (h : (input_mapping_is_match m st).1 = false) :
    streamOf (input_mapping_is_match m st).2.1 = streamOf st := by
  have key := matchLoop_restores m.seq m.seq [] st h
  simpa using key

theorem matcher_failure_restores_stream_witness :
    streamOf (input_mapping_is_match ⟨[97, 98], ["end-of-line"], 1, "default", "default"⟩
        ⟨[97, 99], fun _ => 0⟩).2.1
      = streamOf ⟨[97, 99], fun _ => 0⟩ :=
  matcher_failure_restores_stream ⟨[97, 98], ["end-of-line"], 1, "default", "default"⟩
    ⟨[97, 99], fun _ => 0⟩ (by decide)

/-- C7: during matching of a binding sequence, the `j`-th character is read
with a timed read iff `j > 0` and the first character of the binding's
sequence is a control character. -/
theorem matcher_timed_read_iff (m : input_mapping_t) (st : InputState)
    (j : Nat) (h : j < (input_mapping_is_match m st).2.2.length) :
    (input_mapping_is_match m st).2.2.getD j false
      = (decide (0 < j) && iswcntrl (m.seq.headD 0)) := by
  have key := matchLoop_trace_get m.seq m.seq [] st j h
  simpa using key

theorem matcher_timed_read_iff_witness :
    (input_mapping_is_match ⟨[27, 91], ["complete"], 1, "default", "default"⟩
        ⟨[27, 91], fun _ => 0⟩).2.2.getD 1 false = true := by
  have key := matcher_timed_read_iff ⟨[27, 91], ["complete"], 1, "default", "default"⟩
      ⟨[27, 91], fun _ => 0⟩ 1 (by decide)
  rw [key]; decide

/-- C8: terminfo lookup by name: an unknown name fails with ENOENT; a known
name whose sequence is null fails with EILSEQ; a known name with a defined
sequence succeeds with that sequence ("known" refers to the first entry with
that name). -/
theorem terminfo_get_sequence_spec (tm : List (String × Option (List Int)))
    (name : String) :
    (tm.find? (fun p => p.1 == name) = none →
        input_terminfo_get_sequence tm name = .error ENOENT)
  ∧ (∀ n, tm.find? (fun p => p.1 == name) = some (n, none) →
        input_terminfo_get_sequence tm name = .error EILSEQ)
  ∧ (∀ n s, tm.find? (fun p => p.1 == name) = some (n, some s) →
        input_terminfo_get_sequence tm name = .ok s) := by
  induction tm with
  | nil => simp [input_terminfo_get_sequence]
  | cons p rest ih =>
      obtain ⟨n0, sq0⟩ := p
      by_cases hn : name = n0
      · subst hn
        cases sq0 with
        | none => simp [input_terminfo_get_sequence, List.find?]
        | some s0 => simp [input_terminfo_get_sequence, List.find?]
      · have hb : ((n0, sq0).1 == name) = false := by
          simp only [beq_eq_false_iff_ne, ne_eq]
          exact fun e => hn e.symm
        refine ⟨?_, ?_, ?_⟩
        · intro hfind
          simp only [List.find?, hb] at hfind
          simp only [input_terminfo_get_sequence, if_neg hn]
          exact ih.1 hfind
        · intro n hfind
          simp only [List.find?, hb] at hfind
          simp only [input_terminfo_get_sequence, if_neg hn]
          exact ih.2.1 n hfind
        · intro n s hfind
          simp only [List.find?, hb] at hfind
          simp only [input_terminfo_get_sequence, if_neg hn]
          exact ih.2.2 n s hfind

theorem terminfo_get_sequence_spec_witness :
    input_terminfo_get_sequence [("left", some [1, 2])] "zzz" = .error ENOENT
  ∧ input_terminfo_get_sequence [("left", none)] "left" = .error EILSEQ
  ∧ input_terminfo_get_sequence [("left", some [1, 2])] "left" = .ok [1, 2] :=
  ⟨(terminfo_get_sequence_spec [("left", some [1, 2])] "zzz").1 (by decide),
   (terminfo_get_sequence_spec [("left", none)] "left").2.1 "left" (by decide),
   (terminfo_get_sequence_spec [("left", some [1, 2])] "left").2.2 "left" [1, 2] (by decide)⟩

/-- C9: registry round trip: every registered function name has a code other
than -1, and `describe_char` of that code contains the name; this covers every
name returned by `input_function_get_names`. -/
theorem function_registry_roundtrip :
    ∀ name ∈ input_function_get_names,
      input_function_get_code name ≠ -1 ∧
      strContains (describe_char (input_function_get_code name)) name = true := by
  decide

theorem function_registry_roundtrip_witness :
    input_function_get_code "self-insert" ≠ -1 ∧
    strContains (describe_char (input_function_get_code "self-insert")) "self-insert" = true :=
  function_registry_roundtrip "self-insert" (by decide)

/-- C1 (code bug): `input_mapping_erase` does NOT keep the table in
descending-length order: erasing the first binding of the sorted table
[abc, ab, a] moves the shortest (last) binding into the vacated front slot,
producing [a, ab], whose lengths increase.  This contradicts the stored
iteration order documented at `input_mapping_insert_sorted` ("We sort them in
descending order by length, so that we test longer sequences first"), on
which the longest-prefix-match policy relies. -/
theorem erase_breaks_desc_length_order :
    IsDescLenOrdered
        [⟨[97, 98, 99], ["complete"], 1, "default", "default"⟩,
         ⟨[97, 98], ["complete"], 2, "default", "default"⟩,
         ⟨[97], ["complete"], 3, "default", "default"⟩]
  ∧ (input_mapping_erase
        [⟨[97, 98, 99], ["complete"], 1, "default", "default"⟩,
         ⟨[97, 98], ["complete"], 2, "default", "default"⟩,
         ⟨[97], ["complete"], 3, "default", "default"⟩]
        [97, 98, 99] none)
      = (true,
         [⟨[97], ["complete"], 3, "default", "default"⟩,
          ⟨[97, 98], ["complete"], 2, "default", "default"⟩])
  ∧ ¬ IsDescLenOrdered
        (input_mapping_erase
          [⟨[97, 98, 99], ["complete"], 1, "default", "default"⟩,
           ⟨[97, 98], ["complete"], 2, "default", "default"⟩,
           ⟨[97], ["complete"], 3, "default", "default"⟩]
          [97, 98, 99] none).2 := by
  refine ⟨by decide, by decide, by decide⟩

/-! ## Lemmas about input_mapping_add -/

theorem add_update_loop_eq_none_iff (sequence : List Int) (commands : List String)
    (mode sets_mode : String) :
    ∀ l : List input_mapping_t,
      add_update_loop sequence commands mode sets_mode l = none ↔
        ∀ x ∈ l, ¬(x.seq = sequence ∧ x.mode = mode) := by
  intro l
  induction l with
  | nil => simp [add_update_loop]
  | cons m rest ih =>
      by_cases hm : m.seq = sequence ∧ m.mode = mode
      · simp [add_update_loop, hm]
      · simp only [add_update_loop, if_neg hm, Option.map_eq_none']
        constructor
        · intro hrest x hx
          rcases List.mem_cons.mp hx with h | h
          · subst h; exact hm
          · exact (ih.mp hrest) x h
        · intro hall
          exact ih.mpr (fun x hx => hall x (List.mem_cons_of_mem _ hx))

theorem add_update_loop_eq_some (sequence : List Int) (commands : List String)
    (mode sets_mode : String) :
    ∀ l l' : List input_mapping_t,
      add_update_loop sequence commands mode sets_mode l = some l' →
        ∃ l1 m l2, l = l1 ++ m :: l2 ∧
          (∀ x ∈ l1, ¬(x.seq = sequence ∧ x.mode = mode)) ∧
          m.seq = sequence ∧ m.mode = mode ∧
          l' = l1 ++ { m with commands := commands, sets_mode := sets_mode } :: l2 := by
  intro l
  induction l with
  | nil => intro l' h; simp [add_update_loop] at h
  | cons m rest ih =>
      intro l' h
      by_cases hm : m.seq = sequence ∧ m.mode = mode
      · rw [add_update_loop, if_pos hm] at h
        refine ⟨[], m, rest, by simp, by simp, hm.1, hm.2, ?_⟩
        simpa using h.symm
      · rw [add_update_loop, if_neg hm] at h
        rcases Option.map_eq_some'.mp h with ⟨lr, hlr, hl'⟩
        rcases ih lr hlr with ⟨l1, mm, l2, hdec, hl1, hs, hmo, hupd⟩
        refine ⟨m :: l1, mm, l2, by simp [hdec], ?_, hs, hmo, by simp [hupd, hl'.symm]⟩
        intro x hx
        rcases List.mem_cons.mp hx with h0 | h0
        · subst h0; exact hm
        · exact hl1 x h0

theorem add_update_loop_of_decomp (sequence : List Int) (commands : List String)
    (mode sets_mode : String) :
    ∀ (l1 : List input_mapping_t) (m : input_mapping_t) (l2 : List input_mapping_t),
      (∀ x ∈ l1, ¬(x.seq = sequence ∧ x.mode = mode)) →
      m.seq = sequence → m.mode = mode →
      add_update_loop sequence commands mode sets_mode (l1 ++ m :: l2)
        = some (l1 ++ { m with commands := commands, sets_mode := sets_mode } :: l2) := by
  intro l1
  induction l1 with
  | nil =>
      intro m l2 _ hs hm
      simp [add_update_loop, hs, hm]
  | cons x l1 ih =>
      intro m l2 hl1 hs hm
      have hx : ¬(x.seq = sequence ∧ x.mode = mode) := hl1 x (by simp)
      simp only [List.cons_append, add_update_loop, if_neg hx, List.append_eq]
      rw [ih m l2 (fun y hy => hl1 y (List.mem_cons_of_mem _ hy)) hs hm]
      rfl

theorem insert_sorted_perm (nm : input_mapping_t) :
    ∀ l : List input_mapping_t,
      List.Perm (input_mapping_insert_sorted nm l) (nm :: l) := by
  intro l
  induction l with
  | nil => simp [input_mapping_insert_sorted]
  | cons m rest ih =>
      rw [input_mapping_insert_sorted]
      by_cases hl : length_is_greater_than m nm = true
      · rw [if_pos hl]
        exact ((ih.cons m).trans (List.Perm.swap nm m rest))
      · rw [if_neg hl]

theorem add_preserves_invariants (st : TableState) (sequence : List Int)
    (commands : List String) (mode sets_mode : String)
    (hu : UniqueKeys st.mapping_list) (hd : OrdersDominated st) :
    UniqueKeys (input_mapping_add st sequence commands mode sets_mode).mapping_list
  ∧ OrdersDominated (input_mapping_add st sequence commands mode sets_mode) := by
  rcases hcase : add_update_loop sequence commands mode sets_mode st.mapping_list with _ | l'
  · -- no existing (sequence, mode): a fresh mapping is inserted sorted
    have hnone := (add_update_loop_eq_none_iff sequence commands mode sets_mode
      st.mapping_list).mp hcase
    simp only [input_mapping_add, hcase]
    have hperm := insert_sorted_perm
      ⟨sequence, commands, st.s_last_order + 1, mode, sets_mode⟩ st.mapping_list
    constructor
    · unfold UniqueKeys at hu ⊢
      rw [(hperm.map mappingKey).nodup_iff]
      simp only [List.map_cons, List.nodup_cons]
      refine ⟨?_, hu⟩
      intro hmem
      rcases List.mem_map.mp hmem with ⟨x, hx, hkey⟩
      have h1 : x.seq = sequence := congrArg Prod.fst hkey
      have h2 : x.mode = mode := congrArg Prod.snd hkey
      exact hnone x hx ⟨h1, h2⟩
    · intro m hm
      have hm2 := hperm.mem_iff.mp hm
      rcases List.mem_cons.mp hm2 with h | h
      · subst h; exact le_refl _
      · exact le_trans (hd m h) (Nat.le_succ _)
  · -- existing (sequence, mode): in-place update
    rcases add_update_loop_eq_some sequence commands mode sets_mode
      st.mapping_list l' hcase with ⟨l1, m, l2, hdec, _, _, _, hupd⟩
    simp only [input_mapping_add, hcase]
    constructor
    · unfold UniqueKeys at hu ⊢
      have : l'.map mappingKey = st.mapping_list.map mappingKey := by
        rw [hupd, hdec]; simp [mappingKey]
      simpa [this] using hu
    · intro x hx
      simp only at hx
      rw [hupd] at hx
      rw [List.mem_append, List.mem_cons] at hx
      rcases hx with h | h | h
      · exact hd x (by rw [hdec]; exact List.mem_append_left _ h)
      · have : m.specification_order ≤ st.s_last_order :=
          hd m (by rw [hdec]; exact List.mem_append_right _ (by simp))
        rw [h]
        exact this
      · exact hd x (by rw [hdec]; exact List.mem_append_right _ (List.mem_cons_of_mem _ h))

theorem applyAdds_invariants :
    ∀ (ops : List AddOp) (st : TableState),
      UniqueKeys st.mapping_list → OrdersDominated st →
      UniqueKeys (applyAdds ops st).mapping_list ∧ OrdersDominated (applyAdds ops st) := by
  intro ops
  induction ops with
  | nil => intro st hu hd; exact ⟨hu, hd⟩
  | cons op ops ih =>
      intro st hu hd
      have h := add_preserves_invariants st op.sequence op.commands op.mode op.sets_mode hu hd
      exact ih _ h.1 h.2

/-- C4: after any sequence of add operations (from the empty table) the table
has at most one binding per `(sequence, mode)` pair, and every specification
order is bounded by the counter; adding to an existing `(sequence, mode)`
(first match at an arbitrary position) overwrites only `commands` and
`sets_mode` in place, leaving position, `specification_order`, and the counter
unchanged; adding a new pair creates a binding stamped `counter + 1`, strictly
larger than every existing specification order. -/
theorem add_at_most_one_binding_per_pair :
    (∀ ops : List AddOp,
        UniqueKeys (applyAdds ops initTable).mapping_list
      ∧ OrdersDominated (applyAdds ops initTable))
  ∧ (∀ (st : TableState) (l1 : List input_mapping_t) (m : input_mapping_t)
        (l2 : List input_mapping_t) (sequence : List Int) (commands : List String)
        (mode sets_mode : String),
        st.mapping_list = l1 ++ m :: l2 →
        (∀ x ∈ l1, ¬(x.seq = sequence ∧ x.mode = mode)) →
        m.seq = sequence → m.mode = mode →
        input_mapping_add st sequence commands mode sets_mode
          = ⟨l1 ++ { m with commands := commands, sets_mode := sets_mode } :: l2,
             st.s_last_order⟩)
  ∧ (∀ (st : TableState) (sequence : List Int) (commands : List String)
        (mode sets_mode : String),
        (∀ x ∈ st.mapping_list, ¬(x.seq = sequence ∧ x.mode = mode)) →
        OrdersDominated st →
        ∃ nm ∈ (input_mapping_add st sequence commands mode sets_mode).mapping_list,
          nm.seq = sequence ∧ nm.commands = commands ∧ nm.mode = mode ∧
          nm.sets_mode = sets_mode ∧
          nm.specification_order = st.s_last_order + 1 ∧
          ∀ x ∈ st.mapping_list, x.specification_order < nm.specification_order) := by
  refine ⟨?_, ?_, ?_⟩
  · intro ops
    exact applyAdds_invariants ops initTable (by simp [initTable, UniqueKeys, mappingKey])
      (by simp [initTable, OrdersDominated])
  · intro st l1 m l2 sequence commands mode sets_mode hdec hl1 hs hm
    have hloop := add_update_loop_of_decomp sequence commands mode sets_mode l1 m l2 hl1 hs hm
    rw [← hdec] at hloop
    simp only [input_mapping_add, hloop]
  · intro st sequence commands mode sets_mode hnone hd
    have hloop := (add_update_loop_eq_none_iff sequence commands mode sets_mode
      st.mapping_list).mpr hnone
    simp only [input_mapping_add, hloop]
    refine ⟨⟨sequence, commands, st.s_last_order + 1, mode, sets_mode⟩, ?_, rfl, rfl, rfl, rfl, rfl, ?_⟩
    · exact (insert_sorted_perm _ st.mapping_list).mem_iff.mpr (by simp)
    · intro x hx
      exact Nat.lt_succ_of_le (hd x hx)

theorem add_at_most_one_binding_per_pair_witness :
    input_mapping_add ⟨[⟨[97], ["complete"], 1, "default", "default"⟩], 1⟩
        [97] ["bind"] "default" "insert"
      = ⟨[⟨[97], ["bind"], 1, "default", "insert"⟩], 1⟩ := by
  have key := add_at_most_one_binding_per_pair.2.1
      ⟨[⟨[97], ["complete"], 1, "default", "default"⟩], 1⟩
      [] ⟨[97], ["complete"], 1, "default", "default"⟩ [] [97] ["bind"] "default" "insert"
      rfl (by simp) rfl rfl
  simpa using key

/-! ## Lemmas about the dispatcher -/

theorem streamOf_foldr_unreadch (seq : List Int) (b : InputState) :
    ∀ j, j < seq.length →
      streamOf (seq.foldr (fun ch s => input_unreadch ch s) b) j = seq.getD j 0 := by
  induction seq with
  | nil => intro j h; simp at h
  | cons c rest ih =>
      intro j h
      cases j with
      | zero => rw [List.foldr_cons, streamOf_unreadch]; rfl
      | succ j =>
          rw [List.foldr_cons, streamOf_unreadch]
          exact ih j (by simpa using Nat.lt_of_succ_lt_succ h)

theorem push_args_loop_frame : ∀ (n : Nat) (st : ExecState),
    (push_args_loop n st).bind_mode = st.bind_mode
  ∧ (push_args_loop n st).evaluated = st.evaluated
  ∧ (push_args_loop n st).input_function_status = st.input_function_status := by
  intro n
  induction n with
  | zero => intro st; exact ⟨rfl, rfl, rfl⟩
  | succ n ih =>
      intro st
      rw [push_args_loop]
      exact ih _

theorem execute_pass1_frame : ∀ (cmds : List String) (st : ExecState),
    (execute_pass1 cmds st).bind_mode = st.bind_mode
  ∧ (execute_pass1 cmds st).evaluated = st.evaluated
  ∧ (execute_pass1 cmds st).input_function_status = st.input_function_status := by
  intro cmds
  induction cmds with
  | nil => intro st; exact ⟨rfl, rfl, rfl⟩
  | cons command rest ih =>
      intro st
      rw [execute_pass1]
      by_cases hc : input_function_get_code command ≠ -1
      · rw [if_pos hc]
        have h1 := ih (input_function_push_args (input_function_get_code command) st)
        have h2 := push_args_loop_frame (input_function_arity (input_function_get_code command)) st
        rw [input_function_push_args]
        refine ⟨?_, ?_, ?_⟩
        · rw [(ih _).1]; exact h2.1
        · rw [(ih _).2.1]; exact h2.2.1
        · rw [(ih _).2.2]; exact h2.2.2
      · rw [if_neg hc]
        exact ih st

theorem execute_pass2_false_frame (m : input_mapping_t) : ∀ (cmds : List String) (st : ExecState),
    (execute_pass2 m false cmds st).2.bind_mode = st.bind_mode
  ∧ (execute_pass2 m false cmds st).2.evaluated = st.evaluated
  ∧ (execute_pass2 m false cmds st).2.input_function_args = st.input_function_args
  ∧ (execute_pass2 m false cmds st).2.input_function_status = st.input_function_status := by
  intro cmds
  induction cmds with
  | nil => intro st; exact ⟨rfl, rfl, rfl, rfl⟩
  | cons command rest ih =>
      intro st
      rw [execute_pass2]
      by_cases hc : input_function_get_code command ≠ -1
      · rw [if_pos hc]
        exact ih _
      · rw [if_neg hc]
        exact ⟨rfl, rfl, rfl, rfl⟩

theorem execute_pass2_false_abort (m : input_mapping_t) : ∀ (cmds : List String) (st : ExecState),
    (∃ cmd ∈ cmds, input_function_get_code cmd = -1) →
      (execute_pass2 m false cmds st).1 = false
    ∧ streamOf (execute_pass2 m false cmds st).2.input 0 = R_NULL
    ∧ ∀ j, j < m.seq.length →
        streamOf (execute_pass2 m false cmds st).2.input (j + 1) = m.seq.getD j 0 := by
  intro cmds
  induction cmds with
  | nil => intro st h; simp at h
  | cons command rest ih =>
      intro st h
      rw [execute_pass2]
      by_cases hc : input_function_get_code command ≠ -1
      · rw [if_pos hc]
        apply ih
        rcases h with ⟨cmd, hmem, hcode⟩
        rcases List.mem_cons.mp hmem with h0 | h0
        · exact absurd hcode (h0 ▸ hc)
        · exact ⟨cmd, h0, hcode⟩
      · rw [if_neg hc]
        refine ⟨rfl, ?_, ?_⟩
        · show streamOf (input_unreadch R_NULL _) 0 = R_NULL
          rw [streamOf_unreadch]
        · intro j hj
          show streamOf (input_unreadch R_NULL _) (j + 1) = _
          rw [streamOf_unreadch]
          exact streamOf_foldr_unreadch m.seq st.input j hj

/-- C3: executing a binding whose command list contains a shell command with
`allow_commands = false` aborts the dispatch: the bind mode is unchanged
(`sets_mode` is not applied), the shell evaluator is not invoked, and the next
read yields `R_NULL` followed by the binding's sequence in order. -/
theorem execute_defers_shell_commands (m : input_mapping_t) (st : ExecState)
    (h : ∃ cmd ∈ m.commands, input_function_get_code cmd = -1) :
    (input_mapping_execute m false st).bind_mode = st.bind_mode
  ∧ (input_mapping_execute m false st).evaluated = st.evaluated
  ∧ streamOf (input_mapping_execute m false st).input 0 = R_NULL
  ∧ ∀ j, j < m.seq.length →
      streamOf (input_mapping_execute m false st).input (j + 1) = m.seq.getD j 0 := by
  have hrev : ∃ cmd ∈ m.commands.reverse, input_function_get_code cmd = -1 := by
    rcases h with ⟨cmd, h1, h2⟩
    exact ⟨cmd, List.mem_reverse.mpr h1, h2⟩
  have habort := execute_pass2_false_abort m m.commands.reverse
    (execute_pass1 m.commands.reverse { st with input_function_status := true }) hrev
  have hframe2 := execute_pass2_false_frame m m.commands.reverse
    (execute_pass1 m.commands.reverse { st with input_function_status := true })
  have hframe1 := execute_pass1_frame m.commands.reverse
    { st with input_function_status := true }
  have hres : input_mapping_execute m false st
      = (execute_pass2 m false m.commands.reverse
          (execute_pass1 m.commands.reverse { st with input_function_status := true })).2 := by
    simp only [input_mapping_execute, habort.1, Bool.false_eq_true, if_false]
  rw [hres]
  exact ⟨hframe2.1.trans (hframe1.1.trans rfl),
         hframe2.2.1.trans (hframe1.2.1.trans rfl),
         habort.2.1, habort.2.2⟩

theorem execute_defers_shell_commands_witness :
    (input_mapping_execute ⟨[113], ["echo hi"], 5, "default", "insert"⟩ false
        ⟨⟨[], fun _ => 0⟩, [], "default", [], true⟩).bind_mode = "default"
  ∧ streamOf (input_mapping_execute ⟨[113], ["echo hi"], 5, "default", "insert"⟩ false
        ⟨⟨[], fun _ => 0⟩, [], "default", [], true⟩).input 0 = R_NULL := by
  have key := execute_defers_shell_commands ⟨[113], ["echo hi"], 5, "default", "insert"⟩
      ⟨⟨[], fun _ => 0⟩, [], "default", [], true⟩ ⟨"echo hi", by simp, by decide⟩
  exact ⟨key.1, key.2.2.1⟩

/-- C10: when `input_mapping_execute` aborts because `allow_commands` is false
and a command is a shell command, the argument stack keeps exactly the
contents pass 1 gave it, and the bind mode, evaluator trace, and status flag
also stay as pass 1 left them: the abort path modifies only the input
push-back stream. -/
theorem execute_abort_is_input_only (m : input_mapping_t) (st : ExecState)
    (h : ∃ cmd ∈ m.commands, input_function_get_code cmd = -1) :
    (input_mapping_execute m false st).input_function_args
        = (execute_pass1 m.commands.reverse
            { st with input_function_status := true }).input_function_args
  ∧ (input_mapping_execute m false st).bind_mode
        = (execute_pass1 m.commands.reverse
            { st with input_function_status := true }).bind_mode
  ∧ (input_mapping_execute m false st).evaluated
        = (execute_pass1 m.commands.reverse
            { st with input_function_status := true }).evaluated
  ∧ (input_mapping_execute m false st).input_function_status
        = (execute_pass1 m.commands.reverse
            { st with input_function_status := true }).input_function_status := by
  have hrev : ∃ cmd ∈ m.commands.reverse, input_function_get_code cmd = -1 := by
    rcases h with ⟨cmd, h1, h2⟩
    exact ⟨cmd, List.mem_reverse.mpr h1, h2⟩
  have habort := execute_pass2_false_abort m m.commands.reverse
    (execute_pass1 m.commands.reverse { st with input_function_status := true }) hrev
  have hframe2 := execute_pass2_false_frame m m.commands.reverse
    (execute_pass1 m.commands.reverse { st with input_function_status := true })
  have hres : input_mapping_execute m false st
      = (execute_pass2 m false m.commands.reverse
          (execute_pass1 m.commands.reverse { st with input_function_status := true })).2 := by
    simp only [input_mapping_execute, habort.1, Bool.false_eq_true, if_false]
  rw [hres]
  exact ⟨hframe2.2.2.1, hframe2.1, hframe2.2.1, hframe2.2.2.2⟩

theorem execute_abort_is_input_only_witness :
    (input_mapping_execute ⟨[102], ["forward-jump", "quux"], 6, "default", "default"⟩ false
        ⟨⟨[120], fun _ => 0⟩, [], "default", [], true⟩).input_function_args
      = (execute_pass1 (["forward-jump", "quux"] : List String).reverse
          ⟨⟨[120], fun _ => 0⟩, [], "default", [], true⟩).input_function_args := by
  have key := execute_abort_is_input_only ⟨[102], ["forward-jump", "quux"], 6, "default", "default"⟩
      ⟨⟨[120], fun _ => 0⟩, [], "default", [], true⟩ ⟨"quux", by simp, by decide⟩
  exact key.1

/-! ## Lemmas about the match-or-generic scan -/

theorem is_match_congr (m : input_mapping_t) (s1 s2 : InputState)
    (h : streamOf s1 = streamOf s2) :
    (input_mapping_is_match m s1).1 = (input_mapping_is_match m s2).1
  ∧ streamOf (input_mapping_is_match m s1).2.1
      = streamOf (input_mapping_is_match m s2).2.1 := by
  have key := matchLoop_congr m.seq m.seq [] s1 s2 h
  simp only [matchObs] at key
  constructor
  · have e := congrArg (fun x => x.1) key
    simpa using e
  · have e := congrArg (fun x => x.2.1) key
    simpa using e

theorem is_match_fail_stream (m : input_mapping_t) (st : InputState)
    (h : (input_mapping_is_match m st).1 = false) :
    streamOf (input_mapping_is_match m st).2.1 = streamOf st := by
  have key := matchLoop_restores m.seq m.seq [] st h
  simpa using key

theorem scanLoop_matched (bind_mode : String) :
    ∀ (l : List input_mapping_t) (generic : Option input_mapping_t)
      (inp : InputState) (m : input_mapping_t),
      (scanLoop bind_mode generic l inp).1 = some m →
        m.mode = bind_mode ∧ m.seq ≠ [] ∧ m ∈ l := by
  intro l
  induction l with
  | nil => intro generic inp m h; simp [scanLoop] at h
  | cons x rest ih =>
      intro generic inp m h
      rw [scanLoop] at h
      by_cases hmode : x.mode ≠ bind_mode
      · rw [if_pos hmode] at h
        rcases ih generic inp m h with ⟨h1, h2, h3⟩
        exact ⟨h1, h2, List.mem_cons_of_mem _ h3⟩
      · rw [if_neg hmode] at h
        by_cases hlen : x.seq.length = 0
        · rw [if_pos hlen] at h
          rcases ih (some x) inp m h with ⟨h1, h2, h3⟩
          exact ⟨h1, h2, List.mem_cons_of_mem _ h3⟩
        · rw [if_neg hlen] at h
          by_cases hm : (input_mapping_is_match x inp).1 = true
          · rw [if_pos hm] at h
            have hx : x = m := by simpa using h
            subst hx
            refine ⟨not_not.mp hmode, ?_, by simp⟩
            intro hnil
            exact hlen (by simp [hnil])
          · rw [if_neg hm] at h
            rcases ih generic _ m h with ⟨h1, h2, h3⟩
            exact ⟨h1, h2, List.mem_cons_of_mem _ h3⟩

theorem scanLoop_generic_from (bind_mode : String) :
    ∀ (l : List input_mapping_t) (generic : Option input_mapping_t)
      (inp : InputState) (g : input_mapping_t),
      (scanLoop bind_mode generic l inp).2.1 = some g →
        generic = some g ∨ (g ∈ l ∧ g.mode = bind_mode ∧ g.seq = []) := by
  intro l
  induction l with
  | nil => intro generic inp g h; simp [scanLoop] at h; exact Or.inl (by simp [h])
  | cons x rest ih =>
      intro generic inp g h
      rw [scanLoop] at h
      by_cases hmode : x.mode ≠ bind_mode
      · rw [if_pos hmode] at h
        rcases ih generic inp g h with h0 | ⟨h1, h2, h3⟩
        · exact Or.inl h0
        · exact Or.inr ⟨List.mem_cons_of_mem _ h1, h2, h3⟩
      · rw [if_neg hmode] at h
        by_cases hlen : x.seq.length = 0
        · rw [if_pos hlen] at h
          rcases ih (some x) inp g h with h0 | ⟨h1, h2, h3⟩
          · have hx : x = g := by simpa using h0
            subst hx
            exact Or.inr ⟨by simp, not_not.mp hmode, List.length_eq_zero.mp hlen⟩
          · exact Or.inr ⟨List.mem_cons_of_mem _ h1, h2, h3⟩
        · rw [if_neg hlen] at h
          by_cases hm : (input_mapping_is_match x inp).1 = true
          · rw [if_pos hm] at h
            exact Or.inl h
          · rw [if_neg hm] at h
            rcases ih generic _ g h with h0 | ⟨h1, h2, h3⟩
            · exact Or.inl h0
            · exact Or.inr ⟨List.mem_cons_of_mem _ h1, h2, h3⟩

theorem scanLoop_no_match (bind_mode : String) :
    ∀ (l : List input_mapping_t) (generic : Option input_mapping_t) (inp : InputState),
      (scanLoop bind_mode generic l inp).1 = none →
        streamOf (scanLoop bind_mode generic l inp).2.2 = streamOf inp
      ∧ ∀ x ∈ l, x.mode = bind_mode → x.seq ≠ [] →
          (input_mapping_is_match x inp).1 = false := by
  intro l
  induction l with
  | nil =>
      intro generic inp _
      exact ⟨rfl, by simp⟩
  | cons x rest ih =>
      intro generic inp h
      rw [scanLoop] at h ⊢
      by_cases hmode : x.mode ≠ bind_mode
      · rw [if_pos hmode] at h ⊢
        rcases ih generic inp h with ⟨h1, h2⟩
        refine ⟨h1, ?_⟩
        intro y hy hym hys
        rcases List.mem_cons.mp hy with h0 | h0
        · exact absurd (h0 ▸ hym) hmode
        · exact h2 y h0 hym hys
      · rw [if_neg hmode] at h ⊢
        by_cases hlen : x.seq.length = 0
        · rw [if_pos hlen] at h ⊢
          rcases ih (some x) inp h with ⟨h1, h2⟩
          refine ⟨h1, ?_⟩
          intro y hy hym hys
          rcases List.mem_cons.mp hy with h0 | h0
          · exact absurd (List.length_eq_zero.mp (h0 ▸ hlen)) (h0 ▸ hys)
          · exact h2 y h0 hym hys
        · rw [if_neg hlen] at h ⊢
          by_cases hm : (input_mapping_is_match x inp).1 = true
          · rw [if_pos hm] at h
            simp at h
          · rw [if_neg hm] at h ⊢
            have hfail : (input_mapping_is_match x inp).1 = false :=
              Bool.eq_false_iff.mpr hm
            have hstream := is_match_fail_stream x inp hfail
            rcases ih generic _ h with ⟨h1, h2⟩
            refine ⟨h1.trans hstream, ?_⟩
            intro y hy hym hys
            rcases List.mem_cons.mp hy with h0 | h0
            · exact h0 ▸ hfail
            · have := h2 y h0 hym hys
              rw [← (is_match_congr y _ inp hstream).1]
              exact this

theorem scanLoop_all_fail (bind_mode : String) :
    ∀ (l : List input_mapping_t) (generic : Option input_mapping_t) (inp : InputState),
      (∀ x ∈ l, x.mode = bind_mode → x.seq ≠ [] →
          (input_mapping_is_match x inp).1 = false) →
        (scanLoop bind_mode generic l inp).1 = none
      ∧ streamOf (scanLoop bind_mode generic l inp).2.2 = streamOf inp
      ∧ ((∀ x ∈ l, x.mode = bind_mode → x.seq ≠ []) →
          (scanLoop bind_mode generic l inp).2.1 = generic) := by
  intro l
  induction l with
  | nil => intro generic inp _; exact ⟨rfl, rfl, fun _ => rfl⟩
  | cons x rest ih =>
      intro generic inp hall
      rw [scanLoop]
      by_cases hmode : x.mode ≠ bind_mode
      · rw [if_pos hmode]
        have hrest : ∀ y ∈ rest, y.mode = bind_mode → y.seq ≠ [] →
            (input_mapping_is_match y inp).1 = false :=
          fun y hy => hall y (List.mem_cons_of_mem _ hy)
        rcases ih generic inp hrest with ⟨h1, h2, h3⟩
        exact ⟨h1, h2, fun hng => h3 (fun y hy => hng y (List.mem_cons_of_mem _ hy))⟩
      · rw [if_neg hmode]
        by_cases hlen : x.seq.length = 0
        · rw [if_pos hlen]
          have hrest : ∀ y ∈ rest, y.mode = bind_mode → y.seq ≠ [] →
              (input_mapping_is_match y inp).1 = false :=
            fun y hy => hall y (List.mem_cons_of_mem _ hy)
          rcases ih (some x) inp hrest with ⟨h1, h2, _⟩
          refine ⟨h1, h2, ?_⟩
          intro hng
          exact absurd (List.length_eq_zero.mp hlen)
            (hng x (by simp) (not_not.mp hmode))
        · rw [if_neg hlen]
          have hxfail : (input_mapping_is_match x inp).1 = false :=
            hall x (by simp) (not_not.mp hmode)
              (fun hnil => hlen (by simp [hnil]))
          rw [if_neg (by simp [hxfail])]
          have hstream := is_match_fail_stream x inp hxfail
          have hrest : ∀ y ∈ rest, y.mode = bind_mode → y.seq ≠ [] →
              (input_mapping_is_match y (input_mapping_is_match x inp).2.1).1 = false := by
            intro y hy hym hys
            rw [(is_match_congr y _ inp hstream).1]
            exact hall y (List.mem_cons_of_mem _ hy) hym hys
          rcases ih generic _ hrest with ⟨h1, h2, h3⟩
          exact ⟨h1, h2.trans hstream,
            fun hng => h3 (fun y hy => hng y (List.mem_cons_of_mem _ hy))⟩

theorem scanLoop_filter (bind_mode : String) :
    ∀ (l : List input_mapping_t) (generic : Option input_mapping_t) (inp : InputState),
      scanLoop bind_mode generic (l.filter (fun m => m.mode == bind_mode)) inp
        = scanLoop bind_mode generic l inp := by
  intro l
  induction l with
  | nil => intro generic inp; rfl
  | cons x rest ih =>
      intro generic inp
      by_cases hmode : x.mode = bind_mode
      · have hmode2 : ¬(x.mode ≠ bind_mode) := not_not.mpr hmode
        rw [List.filter_cons_of_pos (by simpa using hmode)]
        simp only [scanLoop, if_neg hmode2]
        by_cases hlen : x.seq.length = 0
        · simp only [if_pos hlen]
          exact ih _ _
        · simp only [if_neg hlen]
          by_cases hm : (input_mapping_is_match x inp).1 = true
          · simp only [if_pos hm]
          · simp only [if_neg hm]
            exact ih _ _
      · rw [List.filter_cons_of_neg (by simpa using hmode)]
        rw [scanLoop, if_pos (show x.mode ≠ bind_mode from hmode)]
        exact ih generic inp

/-- C6: mode scoping: any binding dispatched by the match-or-generic scan has
the current bind mode, and removing every mode-mismatched binding from the
table leaves the entire result unchanged — mode-mismatched bindings are
skipped before any character is read for them, even if their sequence would
match. -/
theorem mode_mismatched_bindings_skipped (table : List input_mapping_t)
    (allow_commands : Bool) (st : ExecState) :
    (∀ b, (input_mapping_execute_matching_or_generic table allow_commands st).1 = some b →
        b.mode = st.bind_mode)
  ∧ input_mapping_execute_matching_or_generic
        (table.filter (fun m => m.mode == st.bind_mode)) allow_commands st
      = input_mapping_execute_matching_or_generic table allow_commands st := by
  constructor
  · intro b hb
    simp only [input_mapping_execute_matching_or_generic, input_get_bind_mode] at hb
    rcases hm : (scanLoop st.bind_mode none table st.input).1 with _ | m
    · rw [hm] at hb
      rcases hg : (scanLoop st.bind_mode none table st.input).2.1 with _ | g
      · rw [hg] at hb
        by_cases heof : (input_common_readch false
            (scanLoop st.bind_mode none table st.input).2.2).1 = R_EOF
        · rw [if_pos heof] at hb
          simp at hb
        · rw [if_neg heof] at hb
          simp at hb
      · rw [hg] at hb
        have hbg : g = b := by simpa using hb
        subst hbg
        rcases scanLoop_generic_from st.bind_mode table none st.input g hg with h0 | h0
        · simp at h0
        · exact h0.2.1
    · rw [hm] at hb
      have hbm : m = b := by simpa using hb
      subst hbm
      exact (scanLoop_matched st.bind_mode table none st.input m hm).1
  · simp only [input_mapping_execute_matching_or_generic, input_get_bind_mode,
      scanLoop_filter]

theorem mode_mismatched_bindings_skipped_witness :
    (⟨[97], ["complete"], 1, "default", "insert"⟩ : input_mapping_t).mode = "default"
  ∧ input_mapping_execute_matching_or_generic
        [⟨[97], ["complete"], 1, "visual", "visual"⟩] true
        ⟨⟨[97], fun _ => 0⟩, [], "default", [], true⟩
      = input_mapping_execute_matching_or_generic
        ([⟨[97], ["complete"], 1, "visual", "visual"⟩].filter
          (fun m => m.mode == "default")) true
        ⟨⟨[97], fun _ => 0⟩, [], "default", [], true⟩ :=
  ⟨(mode_mismatched_bindings_skipped
      [⟨[97], ["complete"], 1, "default", "insert"⟩] true
      ⟨⟨[97], fun _ => 0⟩, [], "default", [], true⟩).1
      ⟨[97], ["complete"], 1, "default", "insert"⟩ (by decide),
   (mode_mismatched_bindings_skipped
      [⟨[97], ["complete"], 1, "visual", "visual"⟩] true
      ⟨⟨[97], fun _ => 0⟩, [], "default", [], true⟩).2.symm⟩

/-- C5: the generic (empty-sequence) binding is dispatched only if no
non-empty binding of the current mode matches the input, regardless of its
position in the table; and if no binding of the current mode matches and no
generic exists in that mode, no binding is dispatched and exactly one
character is consumed and discarded — unless that character is `R_EOF`, which
is pushed back, leaving the stream unchanged. -/
theorem generic_dispatched_only_without_match (table : List input_mapping_t)
    (allow_commands : Bool) (st : ExecState) :
    (∀ b, (input_mapping_execute_matching_or_generic table allow_commands st).1 = some b →
        b.seq = [] →
        ∀ x ∈ table, x.mode = st.bind_mode → x.seq ≠ [] →
          (input_mapping_is_match x st.input).1 = false)
  ∧ ((∀ x ∈ table, x.mode = st.bind_mode → x.seq ≠ [] →
          (input_mapping_is_match x st.input).1 = false) →
     (∀ x ∈ table, x.mode = st.bind_mode → x.seq ≠ []) →
       (input_mapping_execute_matching_or_generic table allow_commands st).1 = none
     ∧ (streamOf st.input 0 = R_EOF →
          streamOf (input_mapping_execute_matching_or_generic table allow_commands st).2.input
            = streamOf st.input)
     ∧ (streamOf st.input 0 ≠ R_EOF →
          streamOf (input_mapping_execute_matching_or_generic table allow_commands st).2.input
            = fun n => streamOf st.input (n + 1))) := by
  constructor
  · intro b hb hbseq
    simp only [input_mapping_execute_matching_or_generic, input_get_bind_mode] at hb
    rcases hm : (scanLoop st.bind_mode none table st.input).1 with _ | m
    · exact (scanLoop_no_match st.bind_mode table none st.input hm).2
    · rw [hm] at hb
      have hbm : m = b := by simpa using hb
      subst hbm
      exact absurd hbseq (scanLoop_matched st.bind_mode table none st.input m hm).2.1
  · intro hfail hng
    rcases scanLoop_all_fail st.bind_mode table none st.input hfail with ⟨h1, h2, h3⟩
    have hg := h3 hng
    have hrc1 : (input_common_readch false (scanLoop st.bind_mode none table st.input).2.2).1
        = streamOf st.input 0 := by
      rw [readch_fst, h2]
    have hrc2 : streamOf (input_common_readch false
          (scanLoop st.bind_mode none table st.input).2.2).2
        = fun n => streamOf st.input (n + 1) := by
      rw [streamOf_readch_snd]
      funext n
      rw [h2]
    refine ⟨?_, ?_, ?_⟩
    · simp only [input_mapping_execute_matching_or_generic, input_get_bind_mode, h1, hg]
      by_cases heof : (input_common_readch false
          (scanLoop st.bind_mode none table st.input).2.2).1 = R_EOF
      · rw [if_pos heof]
      · rw [if_neg heof]
    · intro heof
      have heofc : (input_common_readch false
          (scanLoop st.bind_mode none table st.input).2.2).1 = R_EOF := by
        rw [hrc1]; exact heof
      simp only [input_mapping_execute_matching_or_generic, input_get_bind_mode, h1, hg,
        if_pos heofc]
      rw [streamOf_unreadch_readch, h2]
    · intro heof
      have heofc : ¬ (input_common_readch false
          (scanLoop st.bind_mode none table st.input).2.2).1 = R_EOF := by
        rw [hrc1]; exact heof
      simp only [input_mapping_execute_matching_or_generic, input_get_bind_mode, h1, hg,
        if_neg heofc]
      exact hrc2

theorem generic_dispatched_only_without_match_witness :
    (input_mapping_is_match ⟨[98], ["complete"], 2, "default", "default"⟩
        ⟨[97], fun _ => 0⟩).1 = false
  ∧ (input_mapping_execute_matching_or_generic
        [⟨[98], ["complete"], 1, "default", "default"⟩] true
        ⟨⟨[97], fun _ => 0⟩, [], "default", [], true⟩).1 = none := by
  have key1 := generic_dispatched_only_without_match
      [⟨[], ["self-insert"], 1, "default", "default"⟩,
       ⟨[98], ["complete"], 2, "default", "default"⟩] true
      ⟨⟨[97], fun _ => 0⟩, [], "default", [], true⟩
  have key2 := generic_dispatched_only_without_match
      [⟨[98], ["complete"], 1, "default", "default"⟩] true
      ⟨⟨[97], fun _ => 0⟩, [], "default", [], true⟩
  refine ⟨?_, (key2.2 (by decide) (by decide)).1⟩
  exact key1.1 ⟨[], ["self-insert"], 1, "default", "default"⟩ (by decide) rfl
    ⟨[98], ["complete"], 2, "default", "default"⟩ (by decide) (by decide) (by decide)
